import Mathlib

/-!
Verification of the sage-snark Spartan notebook (`spartan.ipynb`) against its
natural-language specification.

The notebook works over the prime field `GF(P)` with `P = 15 * 2^27 + 1`,
checks a sample R1CS instance `(AL, BL, CL, WL)` directly
(`(A*w) ∘ (B*w) = C*w`), and cross-checks it through multilinear extensions:
MLE-encode the matrices and the witness, hypercube-sum the y-group away, and
evaluate `Ax*Bx - Cx` at the bit decomposition of every row index.

The notebook itself contains only the sample data, `compute_y_sum`, and the
two checking cells.  The helper routines it imports
(`hadamard_product`, `hypercube_sum`, `bit_decomp_dict`,
`matrix_multilinearize`, `vec_multilinearize` from `utils.multivariates`)
are not part of the repository snapshot; they are modelled here from the
specification, as documented on each definition.

Polynomials are embedded shallowly as evaluation functions `List F → F`
over a fixed ordered list of variables (the ring generators of the notebook, the
x-group first and the y-group after it, most-significant bit first).
-/

/-- The prime modulus fixed by the notebook: `P = 15*(2**27) + 1`. -/
def P : Nat := 15 * 2 ^ 27 + 1

/-- The ambient field `Fp = GF(P)` of the notebook. -/
abbrev F : Type := ZMod P

/-- Fuel-driven helper for `bitLength`; structural recursion so that the
kernel can evaluate it. -/
def bitLenAux : Nat → Nat → Nat
  | 0, _ => 0
  | fuel + 1, n => if n = 0 then 0 else bitLenAux fuel (n / 2) + 1

/-- The Python `Integer(n).bit_length()` function: the least `k` with `n < 2^k`. -/
def bitLength (n : Nat) : Nat := bitLenAux n n

/-- Modelled from the spec: the bit-decomposition of an integer index into
the bits of a variable group of size `b`, most-significant bit first
(`utils.multivariates` is not in the snapshot).  `bitDecomp b i` lists the
`b` low bits of `i`, bit `b-1` first. -/
def bitDecomp : Nat → Nat → List Nat
  | 0, _ => []
  | b + 1, i => (i / 2 ^ b) % 2 :: bitDecomp b (i % 2 ^ b)

/-- Recompose a most-significant-bit-first bit list into the integer it
represents (Horner evaluation at 2). -/
def bitRecompose (bits : List Nat) : Nat :=
  bits.foldl (fun acc bit => 2 * acc + bit) 0

/-- The boolean hypercube point (a field-valued assignment, msb first)
encoding row/column index `i` in a variable group of size `b`. -/
def boolPoint (b i : Nat) : List F := (bitDecomp b i).map (Nat.cast)

/-- Sum of `f 0 + f 1 + ... + f (n-1)` in the field; the shape every
enumeration in the helper routines of the notebook takes. -/
def rangeSum (n : Nat) (f : Nat → F) : F := ((List.range n).map f).sum

/-- Modelled from the spec: the product of per-bit selector terms of the
multilinear Lagrange basis: for each bit position, `v` if the bit is `1`
and `1 - v` otherwise. -/
def selProd (bits : List Nat) (vs : List F) : F :=
  (List.zipWith (fun bit v => if bit = 1 then v else 1 - v) bits vs).prod

section BitLemmas

theorem two_pow_pos (k : Nat) : 0 < 2 ^ k := Nat.pos_pow_of_pos k (by norm_num)

theorem bitLenAux_le_iff (fuel n : Nat) (hfn : n ≤ fuel) :
    ∀ k, bitLenAux fuel n ≤ k ↔ n < 2 ^ k := by
  induction fuel generalizing n with
  | zero =>
    intro k
    have hn : n = 0 := Nat.le_zero.mp hfn
    subst hn
    simp [bitLenAux]
  | succ fuel ih =>
    intro k
    by_cases hn : n = 0
    · subst hn
      simp [bitLenAux]
    · have hdiv : n / 2 ≤ fuel := by
        have h2 : n / 2 < n := Nat.div_lt_self (Nat.pos_of_ne_zero hn) (by norm_num)
        omega
      cases k with
      | zero =>
        simp only [bitLenAux, hn, if_false, pow_zero]
        omega
      | succ k =>
        have hiff := ih (n / 2) hdiv k
        have hdiv_iff : n / 2 < 2 ^ k ↔ n < 2 ^ k * 2 :=
          Nat.div_lt_iff_lt_mul (by norm_num)
        simp only [bitLenAux, hn, if_false]
        rw [Nat.succ_le_succ_iff, hiff, pow_succ, hdiv_iff]

theorem bitLength_le_iff (n k : Nat) : bitLength n ≤ k ↔ n < 2 ^ k :=
  bitLenAux_le_iff n n (Nat.le_refl n) k

theorem lt_two_pow_bitLength (n : Nat) : n < 2 ^ bitLength n :=
  (bitLength_le_iff n (bitLength n)).mp (Nat.le_refl _)

theorem le_two_pow_bitLength (n : Nat) : n ≤ 2 ^ bitLength n :=
  Nat.le_of_lt (lt_two_pow_bitLength n)

theorem bitDecomp_length (b i : Nat) : (bitDecomp b i).length = b := by
  induction b generalizing i with
  | zero => rfl
  | succ b ih => simp [bitDecomp, ih]

theorem boolPoint_length (b i : Nat) : (boolPoint b i).length = b := by
  simp [boolPoint, bitDecomp_length]

theorem bitDecomp_mem_le_one (b i : Nat) : ∀ x ∈ bitDecomp b i, x ≤ 1 := by
  induction b generalizing i with
  | zero => intro x hx; simp [bitDecomp] at hx
  | succ b ih =>
    intro x hx
    simp only [bitDecomp, List.mem_cons] at hx
    rcases hx with h | h
    · subst h; omega
    · exact ih (i % 2 ^ b) x h

theorem bitRecompose_foldl_acc (bits : List Nat) (acc : Nat) :
    bits.foldl (fun a bit => 2 * a + bit) acc
      = acc * 2 ^ bits.length + bits.foldl (fun a bit => 2 * a + bit) 0 := by
  induction bits generalizing acc with
  | nil => simp
  | cons x rest ih =>
    simp only [List.foldl_cons, List.length_cons, Nat.mul_zero, Nat.zero_add]
    rw [ih (2 * acc + x), ih x]
    ring

theorem bitRecompose_cons (x : Nat) (rest : List Nat) :
    bitRecompose (x :: rest) = x * 2 ^ rest.length + bitRecompose rest := by
  simp only [bitRecompose, List.foldl_cons]
  rw [bitRecompose_foldl_acc rest (2 * 0 + x)]
  ring_nf

theorem bitRecompose_bitDecomp (b i : Nat) (hi : i < 2 ^ b) :
    bitRecompose (bitDecomp b i) = i := by
  induction b generalizing i with
  | zero =>
    interval_cases i
    rfl
  | succ b ih =>
    have hdivlt : i / 2 ^ b < 2 := by
      rw [Nat.div_lt_iff_lt_mul (Nat.pos_pow_of_pos b (by norm_num))]
      rw [pow_succ] at hi
      omega
    have hmod2 : (i / 2 ^ b) % 2 = i / 2 ^ b := Nat.mod_eq_of_lt hdivlt
    have hmodlt : i % 2 ^ b < 2 ^ b := Nat.mod_lt i (Nat.pos_pow_of_pos b (by norm_num))
    simp only [bitDecomp, hmod2]
    rw [bitRecompose_cons, bitDecomp_length, ih (i % 2 ^ b) hmodlt]
    exact Nat.div_add_mod' i (2 ^ b)

theorem bitDecomp_bitRecompose (bits : List Nat)
    (hb : ∀ x ∈ bits, x ≤ 1) :
    bitRecompose bits < 2 ^ bits.length ∧
      bitDecomp bits.length (bitRecompose bits) = bits := by
  induction bits with
  | nil => exact ⟨by simp [bitRecompose], rfl⟩
  | cons x rest ih =>
    have hx : x ≤ 1 := hb x (List.mem_cons_self x rest)
    have hrest : ∀ y ∈ rest, y ≤ 1 := fun y hy => hb y (List.mem_cons_of_mem x hy)
    obtain ⟨hlt, heq⟩ := ih hrest
    rw [bitRecompose_cons]
    constructor
    · simp only [List.length_cons, pow_succ]
      have : x * 2 ^ rest.length ≤ 2 ^ rest.length := by
        calc x * 2 ^ rest.length ≤ 1 * 2 ^ rest.length :=
              Nat.mul_le_mul_right _ hx
          _ = 2 ^ rest.length := one_mul _
      omega
    · simp only [List.length_cons, bitDecomp]
      have hdiv : (x * 2 ^ rest.length + bitRecompose rest) / 2 ^ rest.length = x := by
        rw [Nat.add_comm, Nat.add_mul_div_right _ _ (two_pow_pos rest.length),
          Nat.div_eq_of_lt hlt]
        exact Nat.zero_add x
      have hmod : (x * 2 ^ rest.length + bitRecompose rest) % 2 ^ rest.length
          = bitRecompose rest := by
        rw [Nat.add_comm, Nat.add_mul_mod_self_right, Nat.mod_eq_of_lt hlt]
      rw [hdiv, hmod, heq, Nat.mod_eq_of_lt (by omega : x < 2)]

end BitLemmas

section RangeSumLemmas

theorem rangeSum_zero (f : Nat → F) : rangeSum 0 f = 0 := rfl

theorem rangeSum_succ (n : Nat) (f : Nat → F) :
    rangeSum (n + 1) f = rangeSum n f + f n := by
  simp [rangeSum, List.range_succ]

theorem rangeSum_succ_left (n : Nat) (f : Nat → F) :
    rangeSum (n + 1) f = f 0 + rangeSum n (fun j => f (j + 1)) := by
  simp only [rangeSum, List.range_succ_eq_map, List.map_cons, List.map_map,
    List.sum_cons]
  rfl

theorem rangeSum_congr (n : Nat) (f g : Nat → F)
    (h : ∀ j, j < n → f j = g j) : rangeSum n f = rangeSum n g := by
  induction n with
  | zero => rfl
  | succ n ih =>
    rw [rangeSum_succ, rangeSum_succ, ih (fun j hj => h j (by omega)),
      h n (by omega)]

theorem rangeSum_add (n : Nat) (f g : Nat → F) :
    rangeSum n (fun j => f j + g j) = rangeSum n f + rangeSum n g := by
  induction n with
  | zero => simp [rangeSum_zero]
  | succ n ih =>
    rw [rangeSum_succ, rangeSum_succ, rangeSum_succ, ih]
    ring

theorem rangeSum_mul_left (n : Nat) (c : F) (f : Nat → F) :
    rangeSum n (fun j => c * f j) = c * rangeSum n f := by
  induction n with
  | zero => simp [rangeSum_zero]
  | succ n ih =>
    rw [rangeSum_succ, rangeSum_succ, ih]
    ring

theorem rangeSum_mul_ite (n t : Nat) (f : Nat → F) :
    rangeSum n (fun j => f j * (if j = t then 1 else 0))
      = if t < n then f t else 0 := by
  induction n with
  | zero => simp [rangeSum_zero]
  | succ n ih =>
    rw [rangeSum_succ, ih]
    by_cases h2 : n = t
    · subst h2
      rw [if_neg (show ¬ n < n by omega), if_pos (show n < n + 1 by omega),
        if_pos rfl]
      ring
    · rw [if_neg h2]
      by_cases h1 : t < n
      · rw [if_pos h1, if_pos (show t < n + 1 by omega)]
        ring
      · rw [if_neg h1, if_neg (show ¬ t < n + 1 by omega)]
        ring

theorem rangeSum_ite_mul (n t : Nat) (f : Nat → F) :
    rangeSum n (fun j => (if j = t then 1 else 0) * f j)
      = if t < n then f t else 0 := by
  rw [rangeSum_congr n _ (fun j => f j * (if j = t then 1 else 0))
    (fun j _ => mul_comm _ _)]
  exact rangeSum_mul_ite n t f

theorem rangeSum_ite_lt (N m : Nat) (h : m ≤ N) (f : Nat → F) :
    rangeSum N (fun t => if t < m then f t else 0) = rangeSum m f := by
  induction N with
  | zero =>
    have : m = 0 := by omega
    subst this
    rfl
  | succ N ih =>
    by_cases hm : m ≤ N
    · rw [rangeSum_succ, ih hm, if_neg (by omega), add_zero]
    · have hmN : m = N + 1 := by omega
      subst hmN
      rw [rangeSum_succ, rangeSum_succ, if_pos (by omega)]
      congr 1
      exact rangeSum_congr _ _ _ (fun j hj => if_pos (Nat.lt_succ_of_lt hj))

end RangeSumLemmas

section SelectorLemmas

theorem selProd_nil (vs : List F) : selProd [] vs = 1 := rfl

theorem selProd_cons (x : Nat) (bits : List Nat) (v : F) (vs : List F) :
    selProd (x :: bits) (v :: vs)
      = (if x = 1 then v else 1 - v) * selProd bits vs := by
  simp [selProd]

theorem boolPoint_succ (b j : Nat) :
    boolPoint (b + 1) j
      = (((j / 2 ^ b) % 2 : Nat) : F) :: boolPoint b (j % 2 ^ b) := by
  simp [boolPoint, bitDecomp]

/-- Orthogonality of the per-bit selector products: evaluated at the boolean
point of index `j`, the selector of index `i` is the Kronecker delta. -/
theorem selProd_boolPoint (b i j : Nat) (hi : i < 2 ^ b) (hj : j < 2 ^ b) :
    selProd (bitDecomp b i) (boolPoint b j) = if i = j then 1 else 0 := by
  induction b generalizing i j with
  | zero =>
    interval_cases i
    interval_cases j
    simp [selProd, bitDecomp, boolPoint]
  | succ b ih =>
    have hdi : i / 2 ^ b < 2 := by
      rw [Nat.div_lt_iff_lt_mul (two_pow_pos b)]
      rw [pow_succ] at hi
      omega
    have hdj : j / 2 ^ b < 2 := by
      rw [Nat.div_lt_iff_lt_mul (two_pow_pos b)]
      rw [pow_succ] at hj
      omega
    have hmi : i % 2 ^ b < 2 ^ b := Nat.mod_lt i (two_pow_pos b)
    have hmj : j % 2 ^ b < 2 ^ b := Nat.mod_lt j (two_pow_pos b)
    have hm2i : (i / 2 ^ b) % 2 = i / 2 ^ b := Nat.mod_eq_of_lt hdi
    have hm2j : (j / 2 ^ b) % 2 = j / 2 ^ b := Nat.mod_eq_of_lt hdj
    have hkey : (i = j) ↔ (i / 2 ^ b = j / 2 ^ b ∧ i % 2 ^ b = j % 2 ^ b) := by
      constructor
      · intro h; subst h; exact ⟨rfl, rfl⟩
      · intro ⟨h1, h2⟩
        have di := Nat.div_add_mod i (2 ^ b)
        have dj := Nat.div_add_mod j (2 ^ b)
        rw [h1, h2] at di
        omega
    have hbd : bitDecomp (b + 1) i = (i / 2 ^ b) % 2 :: bitDecomp b (i % 2 ^ b) := rfl
    rw [hbd, boolPoint_succ, selProd_cons, ih _ _ hmi hmj, hm2i, hm2j]
    rcases (by omega : i / 2 ^ b = 0 ∨ i / 2 ^ b = 1) with h1 | h1 <;>
      rcases (by omega : j / 2 ^ b = 0 ∨ j / 2 ^ b = 1) with h2 | h2
    · have hiff : (i = j) ↔ (i % 2 ^ b = j % 2 ^ b) := by
        rw [hkey, h1, h2]
        simp
      rw [h1, h2]
      simp only [hiff]
      norm_num
    · have hne : i ≠ j := by
        intro h
        rw [h] at h1
        omega
      rw [h1, h2, if_neg hne]
      norm_num
    · have hne : i ≠ j := by
        intro h
        rw [h] at h1
        omega
      rw [h1, h2, if_neg hne]
      norm_num
    · have hiff : (i = j) ↔ (i % 2 ^ b = j % 2 ^ b) := by
        rw [hkey, h1, h2]
        simp
      rw [h1, h2]
      simp only [hiff]
      norm_num

end SelectorLemmas

/-- Modelled from the spec: `vec_multilinearize(w, ygens)` from
`utils.multivariates` (not in the snapshot).  The multilinear extension of a
vector over a y-group of `ny` boolean variables: the weighted sum, over the
entries `(j, value)`, of `value` times the product of per-bit selector
terms (summing over all entries rather than only the nonzero ones adds only
zero terms, so the value is unchanged). -/
def vec_multilinearize (w : List F) (ny : Nat) (ys : List F) : F :=
  rangeSum w.length (fun j => w.getD j 0 * selProd (bitDecomp ny j) ys)

/-- Modelled from the spec: `matrix_multilinearize(M, ring)` from
`utils.multivariates` (not in the snapshot).  The multilinear extension of a
matrix over `nx` x-group variables (the leading ones) and `ny` y-group
variables (the trailing ones): the weighted sum over entries `(i, j, value)`
of `value` times the x-selector for `i` times the y-selector for `j`.
The group sizes are supplied by the caller (the optional pre-existing
variable set of the spec); the slicing in the notebook (`xgens_count`, `compute_y_sum`)
fixes them to `bit_length(nrows)` and `bit_length(ncols)`. -/
def matrix_multilinearize (M : List (List F)) (nx ny : Nat) (vs : List F) : F :=
  rangeSum M.length (fun i =>
    rangeSum (M.getD i []).length (fun j =>
      (M.getD i []).getD j 0 * selProd (bitDecomp nx i) (vs.take nx)
        * selProd (bitDecomp ny j) (vs.drop nx)))

/-- Modelled from the spec: `hypercube_sum(poly, skip_vars)` from
`utils.multivariates` (not in the snapshot).  Positional embedding: the
polynomial has `numGens` ordered variables, `skip_vars` is the list of its
first `skipCount` variables, and those skip variables are kept free (they
are the variables the summation skips, as in the pipeline of the spec where the
row variables stay free); the sum ranges over all boolean assignments to
the remaining trailing variables, enumerated in numeric order of the bit
pattern they represent. -/
def hypercube_sum (numGens skipCount : Nat) (p : List F → F)
    (free : List F) : F :=
  rangeSum (2 ^ (numGens - skipCount)) (fun t =>
    p (free ++ boolPoint (numGens - skipCount) t))

/-- The notebook function `compute_y_sum(poly, y_dim)`:
`skip_len = len(gens) - Integer(y_dim).bit_length()`, `assert skip_len >= 0`
(modelled by returning `none` on assertion failure), then
`hypercube_sum(poly, gens[:skip_len])`.  `numGens` models `len(gens)`. -/
def compute_y_sum (numGens : Nat) (p : List F → F) (y_dim : Nat) :
    Option (List F → F) :=
  if bitLength y_dim ≤ numGens then
    some (hypercube_sum numGens (numGens - bitLength y_dim) p)
  else none

/-- The error kinds named by the error-handling design of the spec. -/
inductive MVError where
  | IndexOutOfRange
  | InvalidDimension
  | DivisionByZero
  deriving DecidableEq

/-- Modelled from the spec: `bit_decomp_dict(i, gens)` from
`utils.multivariates` (not in the snapshot).  Maps an integer index `i` to
the assignment of bit values for a variable group of size `b`
(most-significant bit first); fails with `IndexOutOfRange`, producing no
partial result, when `i < 0` or `i ≥ 2^b`. -/
def bit_decomp_dict (i : Int) (b : Nat) : Except MVError (List F) :=
  if 0 ≤ i ∧ i < ((2 ^ b : Nat) : Int) then Except.ok (boolPoint b i.toNat)
  else Except.error MVError.IndexOutOfRange

/-- The Sage sparse matrix–vector product `M*w` used by the direct
check cell of the notebook (`aw = A*w` and so on). -/
def matVec (M : List (List F)) (w : List F) : List F :=
  M.map (fun row => (List.zipWith (fun a b => a * b) row w).sum)

/-- Modelled from the spec (glossary): `hadamard_product` from
`utils.multivariates` (not in the snapshot) — elementwise multiplication of
two equal-length vectors. -/
def hadamard_product (u v : List F) : List F :=
  List.zipWith (fun a b => a * b) u v

/-- The row-`i` residual of the direct check: `(A*w)_i * (B*w)_i - (C*w)_i`;
the relation holds at row `i` exactly when this is `0`. -/
def directResidual (A B C : List (List F)) (w : List F) (i : Nat) : F :=
  (matVec A w).getD i 0 * (matVec B w).getD i 0 - (matVec C w).getD i 0

/-- From the notebook: `xgens_count = Integer(A.nrows()).bit_length()`. -/
def xgens_count (n : Nat) : Nat := bitLength n

/-- The number of generators of the ring built by
`matrix_multilinearize(A)` for an `n × m` matrix, as the slicing in the notebook
requires: `xgens = gens[:xgens_count]` and the witness MLE lives on
`ygens = gens[xgens_count:]`, with `compute_y_sum(..., m)` keeping exactly
the first `len(gens) - bit_length(m)` variables free. -/
def mleRingGens (n m : Nat) : Nat := xgens_count n + bitLength m

/-- The product polynomial `Axy*Wy` formed in the polynomial
check cell of the notebook: the matrix MLE times the witness MLE, the latter a polynomial
in the trailing y-group only. -/
def mleProduct (M : List (List F)) (w : List F) (nx ny : Nat)
    (vs : List F) : F :=
  matrix_multilinearize M nx ny vs * vec_multilinearize w ny (vs.drop nx)

/-- The polynomial check of the notebook at one row index `i`:
`Ax = compute_y_sum(Axy*Wy, m)` (likewise `Bx`, `Cx`),
`expected = Ax*Bx - Cx`, and the value `expected.subs(d)` with
`d = bit_decomp_dict(i, xgens)`.  `none` models a failure of any step. -/
def polyCheckRow (A B C : List (List F)) (w : List F) (n m : Nat)
    (i : Nat) : Option F :=
  match compute_y_sum (mleRingGens n m)
          (mleProduct A w (xgens_count n) (bitLength m)) m,
      compute_y_sum (mleRingGens n m)
          (mleProduct B w (xgens_count n) (bitLength m)) m,
      compute_y_sum (mleRingGens n m)
          (mleProduct C w (xgens_count n) (bitLength m)) m,
      bit_decomp_dict (i : Int) (xgens_count n) with
  | some ax, some bx, some cx, Except.ok d => some (ax d * bx d - cx d)
  | _, _, _, _ => none

/-- The sample matrix `AL` of the notebook (entries read in `GF(P)`, as by
`Matrix(Fp, AL)`). -/
def AL : List (List F) :=
  [[0, 1, 0, 0, 0, 0],
   [0, 0, 0, 1, 0, 0],
   [0, 1, 0, 0, 1, 0],
   [5, 0, 0, 0, 0, 1]]

/-- The sample matrix `BL` of the notebook. -/
def BL : List (List F) :=
  [[0, 1, 0, 0, 0, 0],
   [0, 1, 0, 0, 0, 0],
   [1, 0, 0, 0, 0, 0],
   [1, 0, 0, 0, 0, 0]]

/-- The sample matrix `CL` of the notebook. -/
def CL : List (List F) :=
  [[0, 0, 0, 1, 0, 0],
   [0, 0, 0, 0, 1, 0],
   [0, 0, 0, 0, 0, 1],
   [0, 0, 1, 0, 0, 0]]

/-- The sample witness `WL = [1, 3, 35, 9, 27, 30]` of the notebook
(entries read in `GF(P)`, as by `vector(Fp, WL)`). -/
def WL : List F := [1, 3, 35, 9, 27, 30]

section ListHelpers

theorem getD_mem_of_lt {α : Type} (l : List α) (d : α) (r : Nat)
    (h : r < l.length) : l.getD r d ∈ l := by
  induction l generalizing r with
  | nil => simp at h
  | cons a t ih =>
    cases r with
    | zero => simp
    | succ r =>
      simp only [List.getD_cons_succ]
      exact List.mem_cons_of_mem a (ih r (by simpa using h))

theorem getD_map_of_lt (M : List (List F)) (f : List F → F) (i : Nat)
    (h : i < M.length) : (M.map f).getD i 0 = f (M.getD i []) := by
  induction M generalizing i with
  | nil => simp at h
  | cons row t ih =>
    cases i with
    | zero => simp
    | succ i => simpa using ih i (by simpa using h)

theorem take_append_boolPoint (b i : Nat) (l : List F) :
    (boolPoint b i ++ l).take b = boolPoint b i := by
  have h := List.take_left (boolPoint b i) l
  rwa [boolPoint_length] at h

theorem drop_append_boolPoint (b i : Nat) (l : List F) :
    (boolPoint b i ++ l).drop b = l := by
  have h := List.drop_left (boolPoint b i) l
  rwa [boolPoint_length] at h

theorem zipWith_mul_sum (u v : List F) (h : u.length = v.length) :
    (List.zipWith (fun a b => a * b) u v).sum
      = rangeSum u.length (fun j => u.getD j 0 * v.getD j 0) := by
  induction u generalizing v with
  | nil => simp [rangeSum_zero]
  | cons a u ih =>
    cases v with
    | nil => simp at h
    | cons b v =>
      simp only [List.zipWith_cons_cons, List.sum_cons, List.length_cons]
      rw [rangeSum_succ_left]
      simp only [List.getD_cons_zero, List.getD_cons_succ]
      rw [ih v (by simpa using h)]

end ListHelpers

section MLELemmas

/-- Extension/padding behaviour of the vector MLE on boolean points: within
the declared length it reproduces the entry, beyond it the value is `0`. -/
theorem vec_multilinearize_boolPoint (w : List F) (ny j : Nat)
    (hw : w.length ≤ 2 ^ ny) (hj : j < 2 ^ ny) :
    vec_multilinearize w ny (boolPoint ny j)
      = if j < w.length then w.getD j 0 else 0 := by
  unfold vec_multilinearize
  rw [rangeSum_congr w.length _
    (fun t => w.getD t 0 * (if t = j then 1 else 0))
    (fun t ht => by rw [selProd_boolPoint ny t j (lt_of_lt_of_le ht hw) hj])]
  exact rangeSum_mul_ite w.length j (fun t => w.getD t 0)

theorem matVec_getD_eq (M : List (List F)) (w : List F) (i : Nat)
    (h : i < M.length) :
    (matVec M w).getD i 0
      = (List.zipWith (fun a b => a * b) (M.getD i []) w).sum := by
  unfold matVec
  exact getD_map_of_lt M _ i h

/-- Extension/padding behaviour of the matrix MLE on boolean points. -/
theorem matrix_multilinearize_boolPoint (M : List (List F)) (nx ny i j : Nat)
    (hn : M.length ≤ 2 ^ nx) (hm : ∀ row ∈ M, row.length ≤ 2 ^ ny)
    (hi : i < 2 ^ nx) (hj : j < 2 ^ ny) :
    matrix_multilinearize M nx ny (boolPoint nx i ++ boolPoint ny j)
      = if i < M.length then
          (if j < (M.getD i []).length then (M.getD i []).getD j 0 else 0)
        else 0 := by
  unfold matrix_multilinearize
  rw [rangeSum_congr M.length _
    (fun r => (if r = i then 1 else 0) *
      rangeSum (M.getD r []).length
        (fun c => (M.getD r []).getD c 0 * (if c = j then 1 else 0)))
    (fun r hr => ?_)]
  · rw [rangeSum_ite_mul]
    by_cases hi' : i < M.length
    · rw [if_pos hi', if_pos hi', rangeSum_mul_ite]
    · rw [if_neg hi', if_neg hi']
  · simp only [take_append_boolPoint, drop_append_boolPoint,
      selProd_boolPoint nx r i (lt_of_lt_of_le hr hn) hi]
    rw [rangeSum_congr (M.getD r []).length _
      (fun c => (M.getD r []).getD c 0 * (if r = i then 1 else 0)
        * (if c = j then 1 else 0))
      (fun c hc => by
        rw [selProd_boolPoint ny c j
          (lt_of_lt_of_le hc (hm _ (getD_mem_of_lt M [] r hr))) hj])]
    rw [← rangeSum_mul_left]
    exact rangeSum_congr _ _ _ (fun c hc => by ring)

end MLELemmas

section PipelineLemmas

/-- The key reduction of the polynomial pipeline: hypercube-summing the
`Mxy*Wy` product over the y-group and evaluating the free x-variables at
the bit pattern of row `i` yields exactly the matrix–vector product entry
`(M*w)_i` of the direct check. -/
theorem hypercube_sum_mleProduct (M : List (List F)) (w : List F)
    (n m : Nat) (hM : M.length = n) (hrows : ∀ row ∈ M, row.length = m)
    (hw : w.length = m) (i : Nat) (hi : i < n) :
    hypercube_sum (mleRingGens n m) (mleRingGens n m - bitLength m)
        (mleProduct M w (xgens_count n) (bitLength m))
        (boolPoint (xgens_count n) i)
      = (matVec M w).getD i 0 := by
  have hgens : mleRingGens n m - (mleRingGens n m - bitLength m)
      = bitLength m := by
    have : bitLength m ≤ mleRingGens n m := by
      unfold mleRingGens
      omega
    omega
  have hiM : i < M.length := by omega
  have hn2 : M.length ≤ 2 ^ xgens_count n := by
    rw [hM]
    exact le_two_pow_bitLength n
  have hi2 : i < 2 ^ xgens_count n :=
    lt_of_lt_of_le (by omega) hn2
  have hm2 : ∀ row ∈ M, row.length ≤ 2 ^ bitLength m := by
    intro row hrow
    rw [hrows row hrow]
    exact le_two_pow_bitLength m
  have hrowi : (M.getD i []).length = m :=
    hrows _ (getD_mem_of_lt M [] i hiM)
  have hw2 : w.length ≤ 2 ^ bitLength m := by
    rw [hw]
    exact le_two_pow_bitLength m
  unfold hypercube_sum
  rw [hgens]
  rw [rangeSum_congr (2 ^ bitLength m) _
    (fun t => if t < m then (M.getD i []).getD t 0 * w.getD t 0 else 0)
    (fun t ht => ?_)]
  · rw [rangeSum_ite_lt _ m (le_two_pow_bitLength m)]
    rw [matVec_getD_eq M w i hiM,
      zipWith_mul_sum (M.getD i []) w (by rw [hrowi, hw]), hrowi]
  · unfold mleProduct
    rw [drop_append_boolPoint,
      matrix_multilinearize_boolPoint M (xgens_count n) (bitLength m) i t
        hn2 hm2 hi2 ht,
      vec_multilinearize_boolPoint w (bitLength m) t hw2 ht,
      if_pos hiM, hrowi, hw]
    by_cases htm : t < m <;> simp [htm]

end PipelineLemmas

section CheckerLemmas

theorem bit_decomp_dict_ok (b i : Nat) (hi : i < 2 ^ b) :
    bit_decomp_dict (i : Int) b = Except.ok (boolPoint b i) := by
  unfold bit_decomp_dict
  rw [if_pos ⟨Int.natCast_nonneg i, by exact_mod_cast hi⟩]
  simp

/-- For a well-formed `n × m` instance and any row `i < n`, the
polynomial check of the notebook computes exactly the residual of the direct check at the
same row. -/
theorem polyCheckRow_eq_direct (A B C : List (List F)) (w : List F)
    (n m : Nat) (hA : A.length = n) (hB : B.length = n) (hC : C.length = n)
    (hArows : ∀ row ∈ A, row.length = m) (hBrows : ∀ row ∈ B, row.length = m)
    (hCrows : ∀ row ∈ C, row.length = m) (hw : w.length = m)
    (i : Nat) (hi : i < n) :
    polyCheckRow A B C w n m i = some (directResidual A B C w i) := by
  have hle : bitLength m ≤ mleRingGens n m := by
    unfold mleRingGens
    omega
  have hcs : ∀ M : List (List F),
      compute_y_sum (mleRingGens n m)
          (mleProduct M w (xgens_count n) (bitLength m)) m
        = some (hypercube_sum (mleRingGens n m)
            (mleRingGens n m - bitLength m)
            (mleProduct M w (xgens_count n) (bitLength m))) := by
    intro M
    unfold compute_y_sum
    rw [if_pos hle]
  have hi2 : i < 2 ^ xgens_count n :=
    lt_of_lt_of_le hi (le_two_pow_bitLength n)
  unfold polyCheckRow
  rw [hcs A, hcs B, hcs C, bit_decomp_dict_ok (xgens_count n) i hi2]
  show some
      (hypercube_sum (mleRingGens n m) (mleRingGens n m - bitLength m)
          (mleProduct A w (xgens_count n) (bitLength m))
          (boolPoint (xgens_count n) i)
        * hypercube_sum (mleRingGens n m) (mleRingGens n m - bitLength m)
            (mleProduct B w (xgens_count n) (bitLength m))
            (boolPoint (xgens_count n) i)
        - hypercube_sum (mleRingGens n m) (mleRingGens n m - bitLength m)
            (mleProduct C w (xgens_count n) (bitLength m))
            (boolPoint (xgens_count n) i))
    = some (directResidual A B C w i)
  rw [hypercube_sum_mleProduct A w n m hA hArows hw i hi,
    hypercube_sum_mleProduct B w n m hB hBrows hw i hi,
    hypercube_sum_mleProduct C w n m hC hCrows hw i hi]
  rfl

end CheckerLemmas

/-- C1: for the sample R1CS instance — `A`, `B`, `C` the 4×6 matrices given
by the literals `AL`, `BL`, `CL` and `w = WL = [1,3,35,9,27,30]`, all over
the prime field of order `P = 15*2^27+1` — the direct check holds: for
every row index `i` in `{0,1,2,3}`, `(A*w)_i * (B*w)_i = (C*w)_i` exactly
in the field; equivalently `hadamard_product(A*w, B*w) = C*w`. -/
theorem c1_direct_check_sample :
    (∀ i, i < 4 →
      (matVec AL WL).getD i 0 * (matVec BL WL).getD i 0
        = (matVec CL WL).getD i 0)
    ∧ hadamard_product (matVec AL WL) (matVec BL WL) = matVec CL WL := by
  constructor
  · intro i hi
    interval_cases i <;> decide
  · decide

/-- Witness for C1, at the concrete row index `2`. -/
theorem c1_direct_check_sample_witness :
    (matVec AL WL).getD 2 0 * (matVec BL WL).getD 2 0
      = (matVec CL WL).getD 2 0 :=
  c1_direct_check_sample.1 2 (by decide)

/-- C6: for every group size `b`: decomposing any `i < 2^b` into its `b`
bit values and recomposing yields `i` again, and the bit-decomposition map
is a bijection between `{0, ..., 2^b - 1}` and `{0,1}^b` (injective on the
range, and surjective onto length-`b` bit lists). -/
theorem c6_bit_roundtrip_bijection (b : Nat) :
    (∀ i, i < 2 ^ b →
      bitRecompose (bitDecomp b i) = i ∧ (bitDecomp b i).length = b
        ∧ ∀ x ∈ bitDecomp b i, x ≤ 1)
    ∧ (∀ i j, i < 2 ^ b → j < 2 ^ b → bitDecomp b i = bitDecomp b j → i = j)
    ∧ (∀ bits : List Nat, bits.length = b → (∀ x ∈ bits, x ≤ 1) →
        bitRecompose bits < 2 ^ b ∧ bitDecomp b (bitRecompose bits) = bits) := by
  refine ⟨fun i hi => ⟨bitRecompose_bitDecomp b i hi, bitDecomp_length b i,
    bitDecomp_mem_le_one b i⟩, fun i j hi hj hij => ?_,
    fun bits hlen hb => ?_⟩
  · rw [← bitRecompose_bitDecomp b i hi, hij, bitRecompose_bitDecomp b j hj]
  · obtain ⟨h1, h2⟩ := bitDecomp_bitRecompose bits hb
    rw [hlen] at h1 h2
    exact ⟨h1, h2⟩

/-- Witness for C6 at `b = 3`, `i = 5`. -/
theorem c6_bit_roundtrip_bijection_witness :
    bitRecompose (bitDecomp 3 5) = 5 :=
  ((c6_bit_roundtrip_bijection 3).1 5 (by decide)).1

/-- C7: summation linearity: for any two polynomials over the same
variables and any designated (trailing) variable subset, the hypercube sum
of `p + q` equals the hypercube sum of `p` plus the hypercube sum of `q`. -/
theorem c7_hypercube_sum_linearity (numGens skipCount : Nat)
    (p q : List F → F) (free : List F) :
    hypercube_sum numGens skipCount (fun vs => p vs + q vs) free
      = hypercube_sum numGens skipCount p free
        + hypercube_sum numGens skipCount q free := by
  unfold hypercube_sum
  exact rangeSum_add _ _ _

/-- C9: the bit-decomposition indexer fails with `IndexOutOfRange` (and
produces no partial result) exactly when `i ≥ 2^b` or `i < 0`; for all
`0 ≤ i < 2^b` it succeeds and returns the bit assignment of `i`. -/
theorem c9_bit_decomp_dict_range (i : Int) (b : Nat) :
    (bit_decomp_dict i b = Except.error MVError.IndexOutOfRange
      ↔ (i < 0 ∨ ((2 ^ b : Nat) : Int) ≤ i))
    ∧ (0 ≤ i ∧ i < ((2 ^ b : Nat) : Int) →
        bit_decomp_dict i b = Except.ok (boolPoint b i.toNat)) := by
  constructor
  · unfold bit_decomp_dict
    by_cases h : 0 ≤ i ∧ i < ((2 ^ b : Nat) : Int)
    · rw [if_pos h]
      constructor
      · intro hc
        exact Except.noConfusion hc
      · intro hor
        rcases h with ⟨h0, h1⟩
        rcases hor with h2 | h2 <;> omega
    · rw [if_neg h]
      have hor : i < 0 ∨ ((2 ^ b : Nat) : Int) ≤ i := by omega
      exact ⟨fun _ => hor, fun _ => rfl⟩
  · intro h
    unfold bit_decomp_dict
    rw [if_pos h]

/-- Witness for C9: a failing index `-1` and a succeeding index `5`, both
with `b = 3`. -/
theorem c9_bit_decomp_dict_range_witness :
    bit_decomp_dict (-1) 3 = Except.error MVError.IndexOutOfRange
      ∧ bit_decomp_dict 5 3 = Except.ok (boolPoint 3 5) :=
  ⟨(c9_bit_decomp_dict_range (-1) 3).1.mpr (Or.inl (by decide)),
    (c9_bit_decomp_dict_range 5 3).2 ⟨by decide, by decide⟩⟩

/-- C4: extension property: for every matrix (or vector) and every boolean
hypercube point whose decoded index pair lies within the declared
dimensions, evaluating the multilinear extension at that point yields
exactly the original entry. -/
theorem c4_extension_property (M : List (List F)) (w : List F)
    (nx ny : Nat) (hn : M.length ≤ 2 ^ nx)
    (hm : ∀ row ∈ M, row.length ≤ 2 ^ ny) (hw : w.length ≤ 2 ^ ny) :
    (∀ i j, i < M.length → j < (M.getD i []).length →
      matrix_multilinearize M nx ny (boolPoint nx i ++ boolPoint ny j)
        = (M.getD i []).getD j 0)
    ∧ (∀ j, j < w.length →
        vec_multilinearize w ny (boolPoint ny j) = w.getD j 0) := by
  constructor
  · intro i j hi hj
    have hi2 : i < 2 ^ nx := lt_of_lt_of_le hi hn
    have hj2 : j < 2 ^ ny :=
      lt_of_lt_of_le hj (hm _ (getD_mem_of_lt M [] i hi))
    rw [matrix_multilinearize_boolPoint M nx ny i j hn hm hi2 hj2,
      if_pos hi, if_pos hj]
  · intro j hj
    have hj2 : j < 2 ^ ny := lt_of_lt_of_le hj hw
    rw [vec_multilinearize_boolPoint w ny j hw hj2, if_pos hj]

/-- Witness for C4 on the sample data: entry `(3,0)` of `AL` is `5` and
entry `2` of `WL` is `35`. -/
theorem c4_extension_property_witness :
    matrix_multilinearize AL 3 3 (boolPoint 3 3 ++ boolPoint 3 0) = 5
      ∧ vec_multilinearize WL 3 (boolPoint 3 2) = 35 := by
  have h := c4_extension_property AL WL 3 3 (by decide) (by decide) (by decide)
  exact ⟨(h.1 3 0 (by decide) (by decide)).trans (by decide),
    (h.2 2 (by decide)).trans (by decide)⟩

/-- C5: zero-padding property: at any boolean hypercube point whose decoded
index is at or beyond the declared dimension (row `≥ n`, or column `≥ m`,
or vector index `≥ m`) but within the range of the hypercube, the multilinear
extension evaluates to `0`. -/
theorem c5_zero_padding (M : List (List F)) (w : List F) (nx ny i j : Nat)
    (hn : M.length ≤ 2 ^ nx) (hm : ∀ row ∈ M, row.length ≤ 2 ^ ny)
    (hi2 : i < 2 ^ nx) (hj2 : j < 2 ^ ny) :
    (M.length ≤ i →
      matrix_multilinearize M nx ny (boolPoint nx i ++ boolPoint ny j) = 0)
    ∧ (i < M.length → (M.getD i []).length ≤ j →
        matrix_multilinearize M nx ny (boolPoint nx i ++ boolPoint ny j) = 0)
    ∧ (w.length ≤ 2 ^ ny → w.length ≤ j →
        vec_multilinearize w ny (boolPoint ny j) = 0) := by
  refine ⟨fun hge => ?_, fun hlt hge => ?_, fun hw hge => ?_⟩
  · rw [matrix_multilinearize_boolPoint M nx ny i j hn hm hi2 hj2,
      if_neg (by omega)]
  · rw [matrix_multilinearize_boolPoint M nx ny i j hn hm hi2 hj2,
      if_pos hlt, if_neg (by omega)]
  · rw [vec_multilinearize_boolPoint w ny j hw hj2, if_neg (by omega)]

/-- Witness for C5 on the sample data: row index `5 ≥ 4` for `AL`, and
vector index `7 ≥ 6` for `WL`, both inside the `2^3` hypercube range. -/
theorem c5_zero_padding_witness :
    matrix_multilinearize AL 3 3 (boolPoint 3 5 ++ boolPoint 3 0) = 0
      ∧ vec_multilinearize WL 3 (boolPoint 3 7) = 0 :=
  ⟨(c5_zero_padding AL WL 3 3 5 0 (by decide) (by decide) (by decide)
      (by decide)).1 (by decide),
    (c5_zero_padding AL WL 3 3 5 7 (by decide) (by decide) (by decide)
      (by decide)).2.2 (by decide) (by decide)⟩

/-- C2: for every well-formed R1CS instance the direct elementwise check
and the polynomial check agree: at every row index the polynomial check
succeeds and computes exactly the residual of the direct check, so the two
checks pass — and fail — on exactly the same set of row indices. -/
theorem c2_poly_check_agrees_direct (A B C : List (List F)) (w : List F)
    (n m : Nat) (hA : A.length = n) (hB : B.length = n) (hC : C.length = n)
    (hArows : ∀ row ∈ A, row.length = m) (hBrows : ∀ row ∈ B, row.length = m)
    (hCrows : ∀ row ∈ C, row.length = m) (hw : w.length = m) :
    ∀ i, i < n →
      polyCheckRow A B C w n m i = some (directResidual A B C w i)
      ∧ (polyCheckRow A B C w n m i = some 0
          ↔ directResidual A B C w i = 0) := by
  intro i hi
  have h := polyCheckRow_eq_direct A B C w n m hA hB hC hArows hBrows
    hCrows hw i hi
  refine ⟨h, ?_⟩
  rw [h]
  exact ⟨fun hz => Option.some.inj hz, fun hz => by rw [hz]⟩

/-- Witness for C2 at the sample instance and row `0`. -/
theorem c2_poly_check_agrees_direct_witness :
    polyCheckRow AL BL CL WL 4 6 0 = some (directResidual AL BL CL WL 0)
      ∧ (polyCheckRow AL BL CL WL 4 6 0 = some 0
          ↔ directResidual AL BL CL WL 0 = 0) :=
  c2_poly_check_agrees_direct AL BL CL WL 4 6 (by decide) (by decide)
    (by decide) (by decide) (by decide) (by decide) (by decide) 0 (by decide)

section ClogLemmas

theorem bitLength_pow_two (j : Nat) : bitLength (2 ^ j) = j + 1 := by
  have h1 : bitLength (2 ^ j) ≤ j + 1 := by
    rw [bitLength_le_iff, pow_succ]
    have := two_pow_pos j
    omega
  have h2 : ¬ bitLength (2 ^ j) ≤ j := by
    rw [bitLength_le_iff]
    omega
  omega

theorem bitLength_eq_clog (n : Nat) (hnp : ¬ ∃ j, n = 2 ^ j) :
    bitLength n = Nat.clog 2 n := by
  have hle : Nat.clog 2 n ≤ bitLength n :=
    (Nat.le_pow_iff_clog_le (by norm_num)).mp (le_two_pow_bitLength n)
  have hge : bitLength n ≤ Nat.clog 2 n := by
    rw [bitLength_le_iff]
    have hle2 : n ≤ 2 ^ Nat.clog 2 n :=
      (Nat.le_pow_iff_clog_le (by norm_num)).mpr (Nat.le_refl _)
    have hne : n ≠ 2 ^ Nat.clog 2 n := fun h => hnp ⟨_, h⟩
    omega
  omega

theorem not_pow_two_six : ¬ ∃ j, (6 : Nat) = 2 ^ j := by
  rintro ⟨j, hj⟩
  have h3 : j < 3 := by
    by_contra h
    push_neg at h
    have : (2 : Nat) ^ 3 ≤ 2 ^ j := Nat.pow_le_pow_right (by norm_num) h
    omega
  interval_cases j <;> omega

end ClogLemmas

/-- Counterexample to C3 as stated: for the sample `n = 4` the x-group size
the notebook uses is `xgens_count 4 = Integer(4).bit_length() = 3`, not
`ceil(log2 4) = 2` as the claim asserts. -/
theorem c3_partition_counterexample :
    xgens_count 4 = 3 ∧ Nat.clog 2 4 = 2 ∧ xgens_count 4 ≠ Nat.clog 2 4 := by
  have h : Nat.clog 2 4 = 2 := by
    have h4 : (4 : Nat) = 2 ^ 2 := by norm_num
    rw [h4, Nat.clog_pow 2 2 (by norm_num)]
  exact ⟨by decide, h, by rw [h]; decide⟩

/-- C3, as amended: the variable partition the pipeline uses has exactly
`bit_length(n)` x-group variables (`xgens_count`) and `bit_length(m)`
y-group variables, where `bit_length(d)` is the least `k` with `d < 2^k`;
`bit_length` coincides with `ceil(log2)` on dimensions that are not powers
of two but exceeds it by one on powers of two — in particular, for the
sample `n = 4` the x-group has `3` variables, not `2`. -/
theorem c3_partition_amended (n m : Nat) :
    mleRingGens n m = xgens_count n + bitLength m
    ∧ (∀ k, xgens_count n ≤ k ↔ n < 2 ^ k)
    ∧ ((¬ ∃ j, n = 2 ^ j) → xgens_count n = Nat.clog 2 n)
    ∧ (∀ j, n = 2 ^ j → xgens_count n = Nat.clog 2 n + 1)
    ∧ ((¬ ∃ j, m = 2 ^ j) → bitLength m = Nat.clog 2 m) := by
  refine ⟨rfl, fun k => bitLength_le_iff n k,
    fun h => bitLength_eq_clog n h, fun j hj => ?_,
    fun h => bitLength_eq_clog m h⟩
  subst hj
  show bitLength (2 ^ j) = Nat.clog 2 (2 ^ j) + 1
  rw [bitLength_pow_two, Nat.clog_pow 2 j (by norm_num)]

/-- Witness for the amended C3 at the sample dimensions `n = 4`, `m = 6`:
the x-group has `3 = clog2(4) + 1` variables (since `4` is a power of two)
and the y-group has `3 = clog2(6)` variables. -/
theorem c3_partition_amended_witness :
    xgens_count 4 = Nat.clog 2 4 + 1 ∧ bitLength 6 = Nat.clog 2 6 :=
  ⟨(c3_partition_amended 4 6).2.2.2.1 2 (by norm_num),
    (c3_partition_amended 4 6).2.2.2.2 not_pow_two_six⟩

/-- Stated from the words of the claim, for comparison with `compute_y_sum`:
the hypercube sum taken over the FIRST `numSum` variables of the
polynomial, leaving the trailing variables free. -/
def hypercube_sum_over_leading (numSum : Nat) (p : List F → F)
    (trailing : List F) : F :=
  rangeSum (2 ^ numSum) (fun t => p (boolPoint numSum t ++ trailing))

/-- Counterexample to C10 as stated: take the two-generator polynomial
`p(v0, v1) = v0` and `y_dim = 1` (so `skip_len = 2 - 1 = 1`).
`compute_y_sum` keeps the FIRST variable free and sums the trailing one:
its value at the free assignment `[1]` is `2`.  The claim instead says it
sums over the first `skip_len` variables leaving the trailing variables
free, which at trailing assignment `[1]` gives `1 ≠ 2`. -/
theorem c10_compute_y_sum_counterexample :
    (compute_y_sum 2 (fun vs => vs.getD 0 0) 1).elim (0 : F)
        (fun q => q [(1 : F)]) = 2
      ∧ hypercube_sum_over_leading (2 - bitLength 1)
          (fun vs => vs.getD 0 0) [(1 : F)] = 1
      ∧ (2 : F) ≠ 1 := by
  refine ⟨by decide, by decide, by decide⟩

/-- C10, as amended: `compute_y_sum` fails its assertion exactly when the
generator count of the parent ring of the polynomial is strictly less than
`Integer(y_dim).bit_length()`; otherwise it returns the hypercube sum of
the polynomial over its TRAILING `bit_length(y_dim)` variables, leaving
the first `len(gens) - bit_length(y_dim)` (skip) variables free. -/
theorem c10_compute_y_sum_amended (numGens y_dim : Nat) (p : List F → F) :
    (compute_y_sum numGens p y_dim = none ↔ numGens < bitLength y_dim)
    ∧ (bitLength y_dim ≤ numGens →
        compute_y_sum numGens p y_dim
          = some (fun free => rangeSum (2 ^ bitLength y_dim)
              (fun t => p (free ++ boolPoint (bitLength y_dim) t)))) := by
  constructor
  · unfold compute_y_sum
    by_cases h : bitLength y_dim ≤ numGens
    · rw [if_pos h]
      constructor
      · intro hc
        exact Option.noConfusion hc
      · omega
    · rw [if_neg h]
      exact ⟨fun _ => by omega, fun _ => rfl⟩
  · intro h
    have hsub : numGens - (numGens - bitLength y_dim) = bitLength y_dim := by
      omega
    unfold compute_y_sum
    rw [if_pos h]
    refine congrArg some ?_
    funext free
    unfold hypercube_sum
    rw [hsub]

/-- Witness for the amended C10 at `numGens = 2`, `y_dim = 1`,
`p(v0, v1) = v0`. -/
theorem c10_compute_y_sum_amended_witness :
    compute_y_sum 2 (fun vs => vs.getD 0 0) 1
      = some (fun free => rangeSum (2 ^ bitLength 1)
          (fun t => (free ++ boolPoint (bitLength 1) t).getD 0 0)) :=
  (c10_compute_y_sum_amended 2 1 (fun vs => vs.getD 0 0)).2 (by decide)

/-- For each witness position `k` of the sample instance, a row of the
relation whose constraint pins `w_k`: mutating `w_k` breaks this row. -/
def failRow (k : Nat) : Nat := [2, 1, 3, 0, 1, 2].getD k 0

theorem eq_of_mul_eq_of_inv (a b u x : F) (hu : u * a = 1)
    (h : a * x = b) : x = u * b := by
  calc x = 1 * x := (one_mul x).symm
    _ = u * a * x := by rw [hu]
    _ = u * (a * x) := mul_assoc u a x
    _ = u * b := by rw [h]

/-- C8: starting from the sample instance, changing entry `k` of `w` to any
value `v` different from the original (for example the first component from
`1` to `2`) makes both the direct check and the polynomial check report a
violation at the same row index `failRow k`: the direct residual at that
row is nonzero, and the polynomial check computes that same nonzero
residual there. -/
theorem c8_single_mutation_violation (k : Nat) (hk : k < 6) (v : F)
    (hv : v ≠ WL.getD k 0) :
    failRow k < 4
    ∧ directResidual AL BL CL (WL.set k v) (failRow k) ≠ 0
    ∧ polyCheckRow AL BL CL (WL.set k v) 4 6 (failRow k)
        = some (directResidual AL BL CL (WL.set k v) (failRow k)) := by
  have hw6 : (WL.set k v).length = 6 := by
    rw [List.length_set]
    rfl
  have hpoly : ∀ r, r < 4 →
      polyCheckRow AL BL CL (WL.set k v) 4 6 r
        = some (directResidual AL BL CL (WL.set k v) r) := fun r hr =>
    polyCheckRow_eq_direct AL BL CL (WL.set k v) 4 6 (by decide) (by decide)
      (by decide) (by decide) (by decide) (by decide) hw6 r hr
  interval_cases k
  · refine ⟨by decide, fun h0 => ?_, hpoly _ (by decide)⟩
    have hres : directResidual AL BL CL (WL.set 0 v) (failRow 0)
        = 30 * v - 30 := by
      simp [failRow, directResidual, matVec, AL, BL, CL, WL]
      norm_num
    rw [hres] at h0
    have h30 : (30 : F) * v = 30 := by linear_combination h0
    have hval : v = (1946157057 : F) * 30 :=
      eq_of_mul_eq_of_inv 30 30 1946157057 v (by decide) h30
    exact hv (hval.trans (by decide))
  · refine ⟨by decide, fun h0 => ?_, hpoly _ (by decide)⟩
    have hres : directResidual AL BL CL (WL.set 1 v) (failRow 1)
        = 9 * v - 27 := by
      simp [failRow, directResidual, matVec, AL, BL, CL, WL]
    rw [hres] at h0
    have h9 : (9 : F) * v = 27 := by linear_combination h0
    have hval : v = (447392427 : F) * 27 :=
      eq_of_mul_eq_of_inv 9 27 447392427 v (by decide) h9
    exact hv (hval.trans (by decide))
  · refine ⟨by decide, fun h0 => ?_, hpoly _ (by decide)⟩
    have hres : directResidual AL BL CL (WL.set 2 v) (failRow 2)
        = 35 - v := by
      simp [failRow, directResidual, matVec, AL, BL, CL, WL]
      norm_num
    rw [hres] at h0
    have hval : v = 35 := by linear_combination -h0
    exact hv (hval.trans (by decide))
  · refine ⟨by decide, fun h0 => ?_, hpoly _ (by decide)⟩
    have hres : directResidual AL BL CL (WL.set 3 v) (failRow 3)
        = 9 - v := by
      simp [failRow, directResidual, matVec, AL, BL, CL, WL]
      norm_num
    rw [hres] at h0
    have hval : v = 9 := by linear_combination -h0
    exact hv (hval.trans (by decide))
  · refine ⟨by decide, fun h0 => ?_, hpoly _ (by decide)⟩
    have hres : directResidual AL BL CL (WL.set 4 v) (failRow 4)
        = 27 - v := by
      simp [failRow, directResidual, matVec, AL, BL, CL, WL]
      norm_num
    rw [hres] at h0
    have hval : v = 27 := by linear_combination -h0
    exact hv (hval.trans (by decide))
  · refine ⟨by decide, fun h0 => ?_, hpoly _ (by decide)⟩
    have hres : directResidual AL BL CL (WL.set 5 v) (failRow 5)
        = 30 - v := by
      simp [failRow, directResidual, matVec, AL, BL, CL, WL]
      norm_num
    rw [hres] at h0
    have hval : v = 30 := by linear_combination -h0
    exact hv (hval.trans (by decide))

/-- Witness for C8: the example given in the claim, changing the first component
of `w` from `1` to `2`; both checks report the violation at row `2`. -/
theorem c8_single_mutation_violation_witness :
    failRow 0 < 4
    ∧ directResidual AL BL CL (WL.set 0 2) (failRow 0) ≠ 0
    ∧ polyCheckRow AL BL CL (WL.set 0 2) 4 6 (failRow 0)
        = some (directResidual AL BL CL (WL.set 0 2) (failRow 0)) :=
  c8_single_mutation_violation 0 (by decide) 2 (by decide)
